import Mathlib

/-!
Verification development for the trading-notebook application (`app.py`).

Strings are modelled as `List Char`; Python `float` timestamps are modelled
as rationals; a missing dictionary key is modelled by `Option`.  The
persisted JSON file is modelled by `FileState`: either missing (opening the
file raises), present but unparseable (`json.load` raises), or a parsed
list of entries.
-/

abbrev Str := List Char

/-- Character list of a string literal (used only to state concrete inputs). -/
def toL (s : String) : Str := s.data

/-- The terminal-punctuation class `[.!?]` of the regex in
`format_journal_text` (app.py line 47). -/
def isTerm (c : Char) : Bool := c = '.' || c = '!' || c = '?'

/-- The whitespace class `\s` of the same regex, and the character set of
Python's `str.strip()`; the app's inputs are covered by the ASCII range. -/
def isWs (c : Char) : Bool :=
  c = ' ' || c = '\t' || c = '\n' || c = '\x0b' || c = '\x0c' || c = '\r'

/-- Python's `str.strip()`: remove leading and trailing whitespace. -/
def pyStrip (s : Str) : Str :=
  ((s.dropWhile isWs).reverse.dropWhile isWs).reverse

/-- The line-break marker `"<br>"` used on app.py line 62. -/
def brL : Str := toL "<br>"

/-- Scanner state for `re.split(r'([.!?]+(?:\s+|$))', text)` (app.py line 47).
`A`: inside ordinary text.  `P run`: inside a punctuation run (`run`, reversed).
`W run ws`: a punctuation run followed by at least one whitespace character
(`ws`, reversed), i.e. a separator match is confirmed and still extending. -/
inductive Mode
  | A
  | P (run : Str)
  | W (run ws : Str)

/-- Left-to-right scan of `re.split(r'([.!?]+(?:\s+|$))', text)`, producing
the alternating list of non-matching pieces and captured separators that
`re.split` returns (with one capturing group the captures are interleaved).
A separator match of this pattern can only start at a `[.!?]` character,
must take the whole maximal punctuation run (a shorter greedy backtrack
would leave a `[.!?]` character next, which is neither `\s` nor the end),
and completes exactly when whitespace follows (consumed greedily) or the
run ends the string (`$` adds nothing beyond that here, because a final
newline is itself `\s`).  `cur` is the current piece, reversed. -/
def scan (m : Mode) (cur : Str) : Str → List Str
  | [] =>
    match m with
    | .A => [cur.reverse]
    | .P run => [cur.reverse, run.reverse, []]
    | .W run ws => [cur.reverse, run.reverse ++ ws.reverse, []]
  | c :: cs =>
    match m with
    | .A => if isTerm c then scan (.P [c]) cur cs else scan .A (c :: cur) cs
    | .P run =>
      if isTerm c then scan (.P (c :: run)) cur cs
      else if isWs c then scan (.W run [c]) cur cs
      else scan .A (c :: (run ++ cur)) cs
    | .W run ws =>
      if isTerm c then cur.reverse :: (run.reverse ++ ws.reverse) :: scan (.P [c]) [] cs
      else if isWs c then scan (.W run (c :: ws)) cur cs
      else cur.reverse :: (run.reverse ++ ws.reverse) :: scan .A [c] cs

/-- `sentences = re.split(r'([.!?]+(?:\s+|$))', text)` (app.py line 47). -/
def re_split (text : Str) : List Str := scan Mode.A [] text

/-- The loop `for i in range(0, len(sentences)-1, 2)` of app.py lines 51-55:
consume a (sentence, punctuation) piece pair at a time, strip both, and keep
`sentence + punctuation` when the stripped sentence is nonempty.  The loop
stops before a final unpaired element, and for the pairs it visits the guard
`i+1 < len(sentences)` always holds. -/
def pairLines : List Str → List Str
  | s :: p :: rest =>
      (if pyStrip s = [] then [] else [pyStrip s ++ pyStrip p]) ++ pairLines rest
  | _ => []

/-- App.py lines 58-59: append `sentences[-1].strip()` when the split list
has odd length and that last stripped piece is nonempty. -/
def tailLine (ss : List Str) : List Str :=
  if ss.length % 2 = 1 ∧ pyStrip (ss.getLastD []) ≠ [] then [pyStrip (ss.getLastD [])]
  else []

/-- The `formatted_lines` list built by app.py lines 50-59. -/
def formatLines (text : Str) : List Str :=
  pairLines (re_split text) ++ tailLine (re_split text)

/-- `format_journal_text` (app.py lines 40-62): early return `""` on falsy
input, otherwise join the formatted lines with `'<br>'`. -/
def format_journal_text (text : Str) : Str :=
  if text = [] then [] else List.intercalate brL (formatLines text)

/-! ## The entry store (app.py lines 14-109) -/

/-- One persisted journal record.  The JSON dictionaries carry the fields of
app.py lines 181-188 plus the `id` stamped by `add_entry`; `Option` models a
missing key (`dict.get` returning `None`). -/
structure Entry where
  id       : Option ℚ
  date     : Option Str
  day      : Option Str
  time     : Option Str
  news     : Option Str
  journal  : Option Str
  saved_at : Option Str
deriving DecidableEq

/-- The backing file `notebook_entries.json`: missing/unreadable (so `open`
raises), present but not valid JSON (so `json.load` raises), or a parsed
list of entries. -/
inductive FileState
  | missing
  | corrupt
  | valid (entries : List Entry)
deriving DecidableEq

/-- `load_entries` (app.py lines 64-70): return the parsed list, and on any
exception — missing, unreadable or unparseable file — return `[]`. -/
def load_entries : FileState → List Entry
  | .valid es => es
  | .missing => []
  | .corrupt => []

/-- `save_entries` (app.py lines 72-75): rewrite the whole file with the
given list. -/
def save_entries (entries : List Entry) : FileState :=
  FileState.valid entries

/-- The entry with `entry['id'] = now` set (app.py line 80). -/
def stamp (now : ℚ) (e : Entry) : Entry := { e with id := some now }

/-- `add_entry` (app.py lines 77-82): load, stamp the current timestamp as
`id` (mutating the passed dictionary), insert at index 0, save.  The second
component models the Python return value: the function body has no `return`
statement, so the call returns `None`, never an entry. -/
def add_entry (now : ℚ) (entry : Entry) (s : FileState) : FileState × Option Entry :=
  (save_entries (stamp now entry :: load_entries s), none)

/-- `delete_entry` (app.py lines 84-88): keep exactly the loaded entries
whose `id` differs from `entry_id`, then save. -/
def delete_entry (entry_id : Option ℚ) (s : FileState) : FileState :=
  save_entries ((load_entries s).filter (fun e => e.id ≠ entry_id))

/-- One loop iteration of `group_entries_by_date` (app.py lines 95-99):
record the date on first sight and append the entry to its group.  The
`defaultdict(list)` is modelled as a function from date to group. -/
def group_step (acc : (Option Str → List Entry) × List (Option Str)) (entry : Entry) :
    (Option Str → List Entry) × List (Option Str) :=
  (fun d => if d = entry.date then acc.1 d ++ [entry] else acc.1 d,
   if entry.date ∈ acc.2 then acc.2 else acc.2 ++ [entry.date])

/-- `group_entries_by_date` (app.py lines 90-101): returns the grouped
mapping and the in-order list of first-seen dates. -/
def group_entries_by_date (entries : List Entry) :
    (Option Str → List Entry) × List (Option Str) :=
  entries.foldl group_step (fun _ => [], [])

/-- The `view_option` selector of the List View tab (app.py lines 275-279). -/
inductive ViewOption
  | all
  | today
  | last7
  | last30

/-- The filter chain of app.py lines 282-291: `"All"` keeps everything,
`"Today"` compares the `date` field with today's IST date string,
`"Last 7 Days"` is the slice `all_entries[:20]`, and `"Last 30 Days"` is the
slice `all_entries[:50]`. -/
def view_filter (v : ViewOption) (today : Str) (all_entries : List Entry) : List Entry :=
  match v with
  | .all => all_entries
  | .today => all_entries.filter (fun e => e.date = some today)
  | .last7 => all_entries.take 20
  | .last30 => all_entries.take 50

/-- A sequence of store operations as issued by the UI: an insert carries the
clock value `datetime.now().timestamp()` observed during that call. -/
inductive Op
  | ins (now : ℚ) (entry : Entry)
  | del (entry_id : Option ℚ)

def run_op (s : FileState) : Op → FileState
  | .ins t e => (add_entry t e s).1
  | .del i => delete_entry i s

def run_ops (ops : List Op) (s : FileState) : FileState :=
  ops.foldl run_op s

/-- The timestamps handed to the inserts of an operation sequence, in order. -/
def insTimes : List Op → List ℚ
  | [] => []
  | .ins t _ :: ops => t :: insTimes ops
  | .del _ :: ops => insTimes ops

/-- Run a sequence of plain inserts (timestamp, raw entry). -/
def run_inserts (ops : List (ℚ × Entry)) (s : FileState) : FileState :=
  ops.foldl (fun st o => (add_entry o.1 o.2 st).1) s

/-- A raw entry as the form submits it: no `id` key yet. -/
def e0 : Entry := ⟨none, none, none, none, none, none, none⟩

/-! ## Store lemmas -/

/-- Loading right after an insert sees the stamped entry at the head and the
previous contents unchanged behind it. -/
lemma load_add (t : ℚ) (e : Entry) (s : FileState) :
    load_entries (add_entry t e s).1 = stamp t e :: load_entries s := rfl

lemma load_delete (i : Option ℚ) (s : FileState) :
    load_entries (delete_entry i s) = (load_entries s).filter (fun e => e.id ≠ i) := rfl

/-! ## Claim theorems: the store -/

/-- C1: for every sequence of inserts starting from any store state,
`load_entries` returns the inserted entries most-recent-first (strict
reverse insertion order, independent of any date/time field values) followed
by the pre-existing entries in unchanged relative order; equivalently one
`add_entry` places the stamped entry at the head and leaves the rest alone. -/
theorem C1_loadAll_reverse_insertion :
    (∀ (t : ℚ) (e : Entry) (s : FileState),
      load_entries (add_entry t e s).1 = stamp t e :: load_entries s)
    ∧ (∀ (s : FileState) (ops : List (ℚ × Entry)),
      load_entries (run_inserts ops s)
        = (ops.map (fun o => stamp o.1 o.2)).reverse ++ load_entries s) := by
  constructor
  · intro t e s; exact load_add t e s
  · intro s ops
    induction ops generalizing s with
    | nil => simp [run_inserts]
    | cons o ops ih =>
      have step : run_inserts (o :: ops) s = run_inserts ops (add_entry o.1 o.2 s).1 := rfl
      rw [step, ih, load_add]
      simp

/-- C2: `load_entries` never fails: a missing or unreadable file and an
unparseable file both yield `[]`, and a parsed file yields its entries. -/
theorem C2_load_entries_total :
    load_entries FileState.missing = [] ∧ load_entries FileState.corrupt = []
    ∧ ∀ es, load_entries (FileState.valid es) = es :=
  ⟨rfl, rfl, fun _ => rfl⟩

/-- C5: after `delete_entry i`, no loaded entry carries id `i`; deleting the
same id twice leaves the identical store state; and when no entry matches,
the deletion is a no-op (observationally on any state, and exactly on a
readable state), not an error. -/
theorem C5_delete_idempotent_noop :
    ∀ (s : FileState) (i : Option ℚ),
      (∀ e ∈ load_entries (delete_entry i s), e.id ≠ i)
      ∧ delete_entry i (delete_entry i s) = delete_entry i s
      ∧ ((∀ e ∈ load_entries s, e.id ≠ i) →
          load_entries (delete_entry i s) = load_entries s)
      ∧ (∀ es, s = FileState.valid es → (∀ e ∈ es, e.id ≠ i) →
          delete_entry i s = s) := by
  intro s i
  refine ⟨?_, ?_, ?_, ?_⟩
  · intro e he
    rw [load_delete] at he
    simpa using (List.of_mem_filter he)
  · show save_entries _ = save_entries _
    rw [load_delete, List.filter_filter]
    simp
  · intro h
    rw [load_delete, List.filter_eq_self.2]
    intro e he
    simpa using h e he
  · intro es hs h
    subst hs
    show save_entries _ = _
    rw [show load_entries (FileState.valid es) = es from rfl, List.filter_eq_self.2]
    · rfl
    · intro e he; simpa using h e he

theorem C5_witness :
    delete_entry (some 1) (FileState.valid [stamp 2 e0]) = FileState.valid [stamp 2 e0] :=
  (C5_delete_idempotent_noop (FileState.valid [stamp 2 e0]) (some 1)).2.2.2
    [stamp 2 e0] rfl (by decide)

/-- C6 as stated is false: `add_entry` has no `return` statement, so its
Python return value is `None`, not the stored entry; here at timestamp 1 on
an empty store the stored entry is `stamp 1 e0`, yet the call returns
nothing. -/
theorem C6_counterexample :
    (add_entry 1 e0 (FileState.valid [])).2 = none
    ∧ (add_entry 1 e0 (FileState.valid [])).2 ≠ some (stamp 1 e0) := by
  exact ⟨rfl, by decide⟩

/-- C6 amended: `add_entry` stamps the fresh id onto the entry and persists
it at the head, and that id is present in the very next `load_entries`
result; however the call itself returns `None` rather than the stored
entry. -/
theorem C6_amended_insert :
    ∀ (t : ℚ) (e : Entry) (s : FileState),
      (add_entry t e s).2 = none
      ∧ load_entries (add_entry t e s).1 = stamp t e :: load_entries s
      ∧ some t ∈ (load_entries (add_entry t e s).1).map (fun en => en.id) := by
  intro t e s
  refine ⟨rfl, load_add t e s, ?_⟩
  rw [load_add]
  exact List.mem_map.2 ⟨stamp t e, List.mem_cons_self _ _, rfl⟩

/-- C9: the "Last 7 Days" and "Last 30 Days" options return exactly the
first 20 and the first 50 entries of the full list — fixed-length prefix
slices, with no dependence on the current date or on any field of the
entries (the filter commutes with every entry transformation). -/
theorem C9_fixed_slices :
    ∀ (today : Str) (entries : List Entry),
      view_filter ViewOption.last7 today entries = entries.take 20
      ∧ view_filter ViewOption.last30 today entries = entries.take 50
      ∧ view_filter ViewOption.last7 today entries <+: entries
      ∧ view_filter ViewOption.last30 today entries <+: entries
      ∧ (∀ (today2 : Str), view_filter ViewOption.last7 today2 entries
          = view_filter ViewOption.last7 today entries)
      ∧ (∀ (f : Entry → Entry),
          view_filter ViewOption.last7 today (entries.map f)
            = (view_filter ViewOption.last7 today entries).map f
          ∧ view_filter ViewOption.last30 today (entries.map f)
            = (view_filter ViewOption.last30 today entries).map f) := by
  intro today entries
  refine ⟨rfl, rfl, List.take_prefix 20 entries, List.take_prefix 50 entries,
    fun _ => rfl, fun f => ⟨?_, ?_⟩⟩
  · show (entries.map f).take 20 = (entries.take 20).map f
    exact (List.map_take f entries 20).symm
  · show (entries.map f).take 50 = (entries.take 50).map f
    exact (List.map_take f entries 50).symm

/-! ## Grouping: first-occurrence key order (claim C4) -/

/-- First occurrences of the elements of a list that are not already in
`seen`, in scan order: the reference description of the key order the claim
asserts. -/
def firstOccurAux {α : Type} [DecidableEq α] (seen : List α) : List α → List α
  | [] => []
  | x :: xs =>
    if x ∈ seen then firstOccurAux seen xs else x :: firstOccurAux (seen ++ [x]) xs

lemma group_order (es : List Entry) :
    ∀ (g : Option Str → List Entry) (o : List (Option Str)),
      (es.foldl group_step (g, o)).2 = o ++ firstOccurAux o (es.map (fun e => e.date)) := by
  induction es with
  | nil => intro g o; simp [firstOccurAux]
  | cons e es ih =>
    intro g o
    by_cases h : e.date ∈ o
    · have step : (e :: es).foldl group_step (g, o)
          = es.foldl group_step (group_step (g, o) e) := rfl
      rw [step]
      have : group_step (g, o) e
          = (fun d => if d = e.date then g d ++ [e] else g d, o) := by
        simp [group_step, h]
      rw [this, ih]
      simp [firstOccurAux, h]
    · have step : (e :: es).foldl group_step (g, o)
          = es.foldl group_step (group_step (g, o) e) := rfl
      rw [step]
      have : group_step (g, o) e
          = (fun d => if d = e.date then g d ++ [e] else g d, o ++ [e.date]) := by
        simp [group_step, h]
      rw [this, ih]
      simp [firstOccurAux, h]

lemma firstOccurAux_mem {α : Type} [DecidableEq α] :
    ∀ (l seen : List α) (x : α), x ∈ firstOccurAux seen l ↔ x ∈ l ∧ x ∉ seen := by
  intro l
  induction l with
  | nil => intro seen x; simp [firstOccurAux]
  | cons y ys ih =>
    intro seen x
    by_cases h : y ∈ seen
    · simp only [firstOccurAux, if_pos h, ih, List.mem_cons]
      constructor
      · rintro ⟨hx, hs⟩; exact ⟨Or.inr hx, hs⟩
      · rintro ⟨rfl | hx, hs⟩
        · exact absurd h hs
        · exact ⟨hx, hs⟩
    · simp only [firstOccurAux, if_neg h, List.mem_cons, ih, List.mem_append,
        List.mem_singleton]
      constructor
      · rintro (rfl | ⟨hx, hs⟩)
        · exact ⟨Or.inl rfl, h⟩
        · exact ⟨Or.inr hx, fun h2 => hs (Or.inl h2)⟩
      · rintro ⟨rfl | hx, hs⟩
        · exact Or.inl rfl
        · by_cases hxy : x = y
          · exact Or.inl hxy
          · exact Or.inr ⟨hx, fun h2 =>
              h2.elim hs (fun h2b => h2b.elim hxy (fun h2c => by cases h2c))⟩

lemma firstOccurAux_nodup {α : Type} [DecidableEq α] :
    ∀ (l seen : List α), (firstOccurAux seen l).Nodup := by
  intro l
  induction l with
  | nil => intro seen; simp [firstOccurAux]
  | cons y ys ih =>
    intro seen
    by_cases h : y ∈ seen
    · simpa [firstOccurAux, if_pos h] using ih seen
    · simp only [firstOccurAux, if_neg h, List.nodup_cons]
      refine ⟨fun hy => ?_, ih _⟩
      exact ((firstOccurAux_mem ys (seen ++ [y]) y).1 hy).2 (by simp)

/-- C4: `group_entries_by_date` is deterministic (it is a pure function, so
two applications to the same input are definitionally identical), and the
date-key order of its result is exactly the order of first appearance of
each distinct `date` value while scanning the input in its given order: the
keys are the duplicate-free first-occurrence subsequence of the scanned
date values. -/
theorem C4_group_by_date_order :
    ∀ entries : List Entry,
      group_entries_by_date entries = group_entries_by_date entries
      ∧ (group_entries_by_date entries).2
          = firstOccurAux [] (entries.map (fun e => e.date))
      ∧ (group_entries_by_date entries).2.Nodup
      ∧ (∀ d, d ∈ (group_entries_by_date entries).2
          ↔ d ∈ entries.map (fun e => e.date)) := by
  intro entries
  have key : (group_entries_by_date entries).2
      = firstOccurAux [] (entries.map (fun e => e.date)) := by
    have := group_order entries (fun _ => []) []
    simpa [group_entries_by_date] using this
  refine ⟨rfl, key, ?_, ?_⟩
  · rw [key]; exact firstOccurAux_nodup _ _
  · intro d
    rw [key]
    simpa using firstOccurAux_mem (entries.map (fun e => e.date)) [] d

/-! ## Id uniqueness (claim C8) -/

/-- The id-distinctness invariant over the loaded entries. -/
def IdsDistinct (s : FileState) : Prop :=
  (load_entries s).Pairwise (fun a b => a.id ≠ b.id)

instance : DecidablePred IdsDistinct := fun s =>
  List.instDecidablePairwise (load_entries s)

lemma insTimes_ins (t : ℚ) (e : Entry) (ops : List Op) :
    insTimes (Op.ins t e :: ops) = t :: insTimes ops := rfl

lemma insTimes_del (i : Option ℚ) (ops : List Op) :
    insTimes (Op.del i :: ops) = insTimes ops := rfl

/-- C8 as stated is false: `add_entry` copies `datetime.now().timestamp()`
into `id` with no uniqueness check, so two inserts that observe the same
clock value produce two entries with the same id. -/
theorem C8_counterexample :
    ¬ IdsDistinct (run_ops [Op.ins 1 e0, Op.ins 1 e0] (FileState.valid [])) := by
  decide

/-- C8 amended: provided each insert's clock timestamp differs from every id
already in the store and the timestamps of the sequence are pairwise
distinct (as with a strictly increasing clock), any sequence of insert and
delete operations preserves pairwise-distinct ids. -/
theorem C8_amended_unique_ids :
    ∀ (ops : List Op) (s : FileState),
      IdsDistinct s →
      (∀ e ∈ load_entries s, ∀ t ∈ insTimes ops, e.id ≠ some t) →
      (insTimes ops).Pairwise (fun a b => a ≠ b) →
      IdsDistinct (run_ops ops s) := by
  intro ops
  induction ops with
  | nil => intro s h1 _ _; exact h1
  | cons op ops ih =>
    intro s h1 h2 h3
    have step : run_ops (op :: ops) s = run_ops ops (run_op s op) := rfl
    rw [step]
    cases op with
    | ins t e =>
      rw [insTimes_ins] at h3
      have h3' := List.pairwise_cons.1 h3
      have hl : load_entries (run_op s (Op.ins t e)) = stamp t e :: load_entries s :=
        load_add t e s
      apply ih
      · show (load_entries (run_op s (Op.ins t e))).Pairwise _
        rw [hl]
        refine List.Pairwise.cons ?_ h1
        intro e2 he2
        have := h2 e2 he2 t (by rw [insTimes_ins]; exact List.mem_cons_self _ _)
        simpa [stamp] using fun h => this h.symm
      · intro e2 he2 t2 ht2
        rw [hl] at he2
        rcases List.mem_cons.1 he2 with rfl | he2
        · have htne : t ≠ t2 := h3'.1 t2 ht2
          simpa [stamp] using htne
        · exact h2 e2 he2 t2 (by rw [insTimes_ins]; exact List.mem_cons_of_mem _ ht2)
      · exact h3'.2
    | del i =>
      rw [insTimes_del] at h3
      have hrun : run_op s (Op.del i) = delete_entry i s := rfl
      apply ih
      · show (load_entries (run_op s (Op.del i))).Pairwise _
        rw [hrun, load_delete]
        exact List.Pairwise.filter _ h1
      · intro e2 he2 t2 ht2
        rw [hrun, load_delete] at he2
        exact h2 e2 (List.mem_of_mem_filter he2) t2
          (by rw [insTimes_del]; exact ht2)
      · exact h3

theorem C8_witness :
    IdsDistinct (run_ops [Op.ins 1 e0, Op.del (some 1), Op.ins 2 e0] (FileState.valid [])) :=
  C8_amended_unique_ids [Op.ins 1 e0, Op.del (some 1), Op.ins 2 e0]
    (FileState.valid []) (by decide) (by decide) (by decide)

/-! ## Character and list helpers for the formatter -/

lemma term_not_ws {c : Char} (h : isTerm c = true) : isWs c = false := by
  simp only [isTerm, Bool.or_eq_true, decide_eq_true_eq] at h
  rcases h with (h | h) | h <;> subst h <;> decide

lemma lenDropWhile {α : Type} (p : α → Bool) (l : List α) :
    (l.dropWhile p).length ≤ l.length := by
  induction l with
  | nil => simp
  | cons a l ih =>
    rw [List.dropWhile_cons]
    by_cases h : p a = true
    · rw [if_pos h]; exact le_trans ih (Nat.le_succ _)
    · rw [if_neg h]

lemma dwConsNeg {α : Type} {p : α → Bool} {a : α} (l : List α) (h : p a = false) :
    (a :: l).dropWhile p = a :: l := by
  rw [List.dropWhile_cons, if_neg (by simp [h])]

lemma twConsNeg {α : Type} {p : α → Bool} {a : α} (l : List α) (h : p a = false) :
    (a :: l).takeWhile p = [] := by
  rw [List.takeWhile_cons, if_neg (by simp [h])]

lemma dwAllAppend {α : Type} (p : α → Bool) (xs ys : List α)
    (h : ∀ c ∈ xs, p c = true) : (xs ++ ys).dropWhile p = ys.dropWhile p := by
  induction xs with
  | nil => rfl
  | cons a xs ih =>
    rw [List.cons_append, List.dropWhile_cons, if_pos (h a (List.mem_cons_self _ _))]
    exact ih (fun c hc => h c (List.mem_cons_of_mem _ hc))

lemma twAllAppend {α : Type} (p : α → Bool) (xs ys : List α)
    (h : ∀ c ∈ xs, p c = true) : (xs ++ ys).takeWhile p = xs ++ ys.takeWhile p := by
  induction xs with
  | nil => rfl
  | cons a xs ih =>
    rw [List.cons_append, List.takeWhile_cons, if_pos (h a (List.mem_cons_self _ _)),
      ih (fun c hc => h c (List.mem_cons_of_mem _ hc)), List.cons_append]

lemma dwNoneAll {α : Type} {p : α → Bool} {l : List α}
    (h : ∀ c ∈ l, p c = false) : l.dropWhile p = l := by
  cases l with
  | nil => rfl
  | cons a l => exact dwConsNeg l (h a (List.mem_cons_self _ _))

lemma pyStrip_no_ws {s : Str} (h : ∀ c ∈ s, isWs c = false) : pyStrip s = s := by
  unfold pyStrip
  rw [dwNoneAll h, dwNoneAll (fun c hc => h c (List.mem_reverse.1 hc)),
    List.reverse_reverse]

/-- Stripping a nonempty punctuation run followed by whitespace leaves the
run: this is why `sentences[i+1].strip()` is the bare punctuation run. -/
lemma pyStrip_term_ws {p w : Str} (hp : p ≠ []) (hpt : ∀ c ∈ p, isTerm c = true)
    (hw : ∀ c ∈ w, isWs c = true) : pyStrip (p ++ w) = p := by
  obtain ⟨a, p2, rfl⟩ := List.exists_cons_of_ne_nil hp
  unfold pyStrip
  rw [List.cons_append, dwConsNeg _ (term_not_ws (hpt a (List.mem_cons_self _ _))),
    ← List.cons_append, List.reverse_append,
    dwAllAppend isWs _ _ (fun c hc => hw c (List.mem_reverse.1 hc)),
    dwNoneAll (fun c hc => term_not_ws (hpt c (List.mem_reverse.1 hc))),
    List.reverse_reverse]

/-! ## Equation lemmas for the scanner -/

lemma scan_nil_A (cur : Str) : scan Mode.A cur [] = [cur.reverse] := rfl

lemma scan_nil_P (run cur : Str) :
    scan (Mode.P run) cur [] = [cur.reverse, run.reverse, []] := rfl

lemma scan_nil_W (run ws cur : Str) :
    scan (Mode.W run ws) cur [] = [cur.reverse, run.reverse ++ ws.reverse, []] := rfl

lemma scan_cons_A (cur : Str) (c : Char) (cs : Str) :
    scan Mode.A cur (c :: cs)
      = if isTerm c then scan (Mode.P [c]) cur cs else scan Mode.A (c :: cur) cs := rfl

lemma scan_cons_P (run cur : Str) (c : Char) (cs : Str) :
    scan (Mode.P run) cur (c :: cs)
      = if isTerm c then scan (Mode.P (c :: run)) cur cs
        else if isWs c then scan (Mode.W run [c]) cur cs
        else scan Mode.A (c :: (run ++ cur)) cs := rfl

lemma scan_cons_W (run ws cur : Str) (c : Char) (cs : Str) :
    scan (Mode.W run ws) cur (c :: cs)
      = if isTerm c then
          cur.reverse :: (run.reverse ++ ws.reverse) :: scan (Mode.P [c]) [] cs
        else if isWs c then scan (Mode.W run (c :: ws)) cur cs
        else cur.reverse :: (run.reverse ++ ws.reverse) :: scan Mode.A [c] cs := rfl

lemma scan_ne_nil : ∀ (l : Str) (m : Mode) (cur : Str), scan m cur l ≠ [] := by
  intro l
  induction l with
  | nil => intro m cur; cases m <;> simp [scan]
  | cons c cs ih =>
    intro m cur
    cases m with
    | A =>
      rw [scan_cons_A]
      by_cases h : isTerm c
      · rw [if_pos h]; exact ih _ _
      · rw [if_neg h]; exact ih _ _
    | P run =>
      rw [scan_cons_P]
      by_cases h : isTerm c
      · rw [if_pos h]; exact ih _ _
      · rw [if_neg h]
        by_cases h2 : isWs c
        · rw [if_pos h2]; exact ih _ _
        · rw [if_neg h2]; exact ih _ _
    | W run ws =>
      rw [scan_cons_W]
      by_cases h : isTerm c
      · rw [if_pos h]; simp
      · rw [if_neg h]
        by_cases h2 : isWs c
        · rw [if_pos h2]; exact ih _ _
        · rw [if_neg h2]; simp

/-! ## Decomposition of the line-building pipeline -/

/-- `formatted_lines` as a function of the split result (app.py lines 50-59). -/
def pipeLines (ss : List Str) : List Str := pairLines ss ++ tailLine ss

lemma formatLines_eq_pipe (t : Str) : formatLines t = pipeLines (re_split t) := rfl

lemma pairLines_cons2 (s p : Str) (rest : List Str) :
    pairLines (s :: p :: rest)
      = (if pyStrip s = [] then [] else [pyStrip s ++ pyStrip p]) ++ pairLines rest := rfl

lemma tailLine_cons2 (x y : Str) {R : List Str} (h : R ≠ []) :
    tailLine (x :: y :: R) = tailLine R := by
  obtain ⟨a, R2, rfl⟩ := List.exists_cons_of_ne_nil h
  unfold tailLine
  have hlen : (x :: y :: a :: R2).length % 2 = (a :: R2).length % 2 := by
    simp [List.length_cons]; omega
  have hlast : (x :: y :: a :: R2).getLastD [] = (a :: R2).getLastD [] := by
    simp [List.getLastD_cons]
  rw [hlen, hlast]

lemma pipeLines_cons2 (x y : Str) {R : List Str} (h : R ≠ []) :
    pipeLines (x :: y :: R)
      = (if pyStrip x = [] then [] else [pyStrip x ++ pyStrip y]) ++ pipeLines R := by
  unfold pipeLines
  rw [pairLines_cons2, tailLine_cons2 x y h, List.append_assoc]

/-! ## The formatter described by the spec's words, and by the amended claim -/

/-- Modelled from the spec's words (§4.2, quoted by claim C3): split the text
into sentences at every maximal run of terminal punctuation, keeping the run
attached to the sentence it terminates, trim surrounding whitespace from each
sentence, and keep a trailing fragment with no terminal punctuation as its
own (trimmed, nonempty) line.  `run = some r` means a punctuation run `r`
(reversed) is being read; `cur` is the current sentence text, reversed. -/
def specScan (run : Option Str) (cur : Str) : Str → List Str
  | [] =>
    match run with
    | none => if pyStrip cur.reverse = [] then [] else [pyStrip cur.reverse]
    | some r => [pyStrip (cur.reverse ++ r.reverse)]
  | c :: cs =>
    match run with
    | none => if isTerm c then specScan (some [c]) cur cs else specScan none (c :: cur) cs
    | some r =>
      if isTerm c then specScan (some (c :: r)) cur cs
      else pyStrip (cur.reverse ++ r.reverse) :: specScan none [c] cs

/-- `formatForDisplay` as the spec's §4.2 words describe it. -/
def formatForDisplaySpec (text : Str) : Str :=
  List.intercalate brL (specScan none [] text)

/-- The sentence splitter of the amended claim C3: a maximal run of terminal
punctuation immediately followed by whitespace or by the end of the input
closes the current sentence, which is emitted trimmed with the run attached —
or dropped entirely, run included, when it trims to empty; the whitespace
after the run is discarded; a punctuation run followed by anything else is
ordinary sentence text; a trailing unterminated fragment becomes its own
line when it trims to nonempty.  `cur` is the current sentence, reversed. -/
def amendedLines (cur : Str) : Str → List Str
  | [] => if pyStrip cur.reverse = [] then [] else [pyStrip cur.reverse]
  | c :: cs =>
    if h : isTerm c then
      if ((c :: cs).dropWhile isTerm).takeWhile isWs = [] ∧ (c :: cs).dropWhile isTerm ≠ [] then
        amendedLines (((c :: cs).takeWhile isTerm).reverse ++ cur) ((c :: cs).dropWhile isTerm)
      else
        (if pyStrip cur.reverse = [] then []
         else [pyStrip cur.reverse ++ (c :: cs).takeWhile isTerm])
          ++ amendedLines [] (((c :: cs).dropWhile isTerm).dropWhile isWs)
    else amendedLines (c :: cur) cs
termination_by l => l.length
decreasing_by
  · rw [List.dropWhile_cons, if_pos h]
    exact Nat.lt_succ_of_le (lenDropWhile isTerm cs)
  · rw [List.dropWhile_cons, if_pos h]
    exact Nat.lt_succ_of_le (le_trans (lenDropWhile isWs _) (lenDropWhile isTerm cs))
  · simp

/-- `formatForDisplay` as the amended claim C3 describes it. -/
def formatForDisplayAmended (text : Str) : Str :=
  List.intercalate brL (amendedLines [] text)

/-! ## Equation lemmas for the amended splitter -/

lemma amendedLines_nil (cur : Str) :
    amendedLines cur []
      = if pyStrip cur.reverse = [] then [] else [pyStrip cur.reverse] := by
  simp only [amendedLines]

lemma amendedLines_skip (cur : Str) (c : Char) (cs : Str) (h : isTerm c = true)
    (hcond : ((c :: cs).dropWhile isTerm).takeWhile isWs = []
      ∧ (c :: cs).dropWhile isTerm ≠ []) :
    amendedLines cur (c :: cs)
      = amendedLines (((c :: cs).takeWhile isTerm).reverse ++ cur)
          ((c :: cs).dropWhile isTerm) := by
  simp only [amendedLines]
  rw [dif_pos h, if_pos hcond]

lemma amendedLines_split (cur : Str) (c : Char) (cs : Str) (h : isTerm c = true)
    (hcond : ¬(((c :: cs).dropWhile isTerm).takeWhile isWs = []
      ∧ (c :: cs).dropWhile isTerm ≠ [])) :
    amendedLines cur (c :: cs)
      = (if pyStrip cur.reverse = [] then []
         else [pyStrip cur.reverse ++ (c :: cs).takeWhile isTerm])
          ++ amendedLines [] (((c :: cs).dropWhile isTerm).dropWhile isWs) := by
  simp only [amendedLines]
  rw [dif_pos h, if_neg hcond]

lemma amendedLines_text (cur : Str) (c : Char) (cs : Str) (h : isTerm c = false) :
    amendedLines cur (c :: cs) = amendedLines (c :: cur) cs := by
  simp only [amendedLines]
  rw [dif_neg (by simp [h])]

lemma amendedLines_nil_nil : amendedLines [] [] = [] := by
  rw [amendedLines_nil]; rfl

lemma twAllNil {p : Char → Bool} {l : Str} (h : ∀ c ∈ l, p c = true) :
    l.takeWhile p = l := by
  have h2 := twAllAppend p l [] h
  simpa using h2

lemma dwAllNil {p : Char → Bool} {l : Str} (h : ∀ c ∈ l, p c = true) :
    l.dropWhile p = [] := by
  have h2 := dwAllAppend p l [] h
  simpa using h2

lemma dwOfTwNil {p : Char → Bool} {l : Str} (h : l.takeWhile p = []) :
    l.dropWhile p = l := by
  conv_rhs => rw [← List.takeWhile_append_dropWhile p l]
  rw [h, List.nil_append]

/-- A nonempty all-punctuation block followed by text that does not start
with punctuation, where whitespace (or the end) follows the block: the
amended splitter emits (or drops) the closed sentence there. -/
lemma amendedLines_delim (cur p rest : Str) (hp : p ≠ [])
    (hpt : ∀ c ∈ p, isTerm c = true) (hrest : rest.takeWhile isTerm = [])
    (hcond : ¬(rest.takeWhile isWs = [] ∧ rest ≠ [])) :
    amendedLines cur (p ++ rest)
      = (if pyStrip cur.reverse = [] then [] else [pyStrip cur.reverse ++ p])
        ++ amendedLines [] (rest.dropWhile isWs) := by
  obtain ⟨a, p2, rfl⟩ := List.exists_cons_of_ne_nil hp
  have ha : isTerm a = true := hpt a (List.mem_cons_self _ _)
  have htw2 : (a :: (p2 ++ rest)).takeWhile isTerm = a :: p2 := by
    rw [← List.cons_append, twAllAppend isTerm _ _ hpt, hrest, List.append_nil]
  have hdw2 : (a :: (p2 ++ rest)).dropWhile isTerm = rest := by
    rw [← List.cons_append, dwAllAppend isTerm _ _ hpt, dwOfTwNil hrest]
  have hcond2 : ¬(((a :: (p2 ++ rest)).dropWhile isTerm).takeWhile isWs = []
      ∧ (a :: (p2 ++ rest)).dropWhile isTerm ≠ []) := by
    rw [hdw2]; exact hcond
  rw [List.cons_append, amendedLines_split cur a (p2 ++ rest) ha hcond2, htw2, hdw2]

/-- A nonempty all-punctuation block directly followed by other text (no
whitespace, not the end): the amended splitter treats it as sentence text. -/
lemma amendedLines_run_text (cur p rest : Str) (hp : p ≠ [])
    (hpt : ∀ c ∈ p, isTerm c = true) (hrest : rest.takeWhile isTerm = [])
    (hcond : rest.takeWhile isWs = [] ∧ rest ≠ []) :
    amendedLines cur (p ++ rest) = amendedLines (p.reverse ++ cur) rest := by
  obtain ⟨a, p2, rfl⟩ := List.exists_cons_of_ne_nil hp
  have ha : isTerm a = true := hpt a (List.mem_cons_self _ _)
  have htw2 : (a :: (p2 ++ rest)).takeWhile isTerm = a :: p2 := by
    rw [← List.cons_append, twAllAppend isTerm _ _ hpt, hrest, List.append_nil]
  have hdw2 : (a :: (p2 ++ rest)).dropWhile isTerm = rest := by
    rw [← List.cons_append, dwAllAppend isTerm _ _ hpt, dwOfTwNil hrest]
  have hcond2 : ((a :: (p2 ++ rest)).dropWhile isTerm).takeWhile isWs = []
      ∧ (a :: (p2 ++ rest)).dropWhile isTerm ≠ [] := by
    rw [hdw2]; exact hcond
  rw [List.cons_append, amendedLines_skip cur a (p2 ++ rest) ha hcond2, htw2, hdw2]

/-- Plain text with no terminal punctuation is accumulated unchanged. -/
lemma amendedLines_textAll (a : Str) : ∀ (cur l : Str), (∀ c ∈ a, isTerm c = false) →
    amendedLines cur (a ++ l) = amendedLines (a.reverse ++ cur) l := by
  induction a with
  | nil => intro cur l _; simp
  | cons c a2 ih =>
    intro cur l h
    rw [List.cons_append, amendedLines_text _ _ _ (h c (List.mem_cons_self _ _)),
      ih (c :: cur) l (fun d hd => h d (List.mem_cons_of_mem _ hd))]
    simp [List.reverse_cons, List.append_assoc, List.singleton_append]

lemma pipeLines_one (x : Str) :
    pipeLines [x] = if pyStrip x = [] then [] else [pyStrip x] := by
  unfold pipeLines tailLine
  have h1 : pairLines [x] = [] := rfl
  rw [h1]
  by_cases hx : pyStrip x = [] <;>
    simp [hx, List.getLastD_cons, List.getLastD_nil]

/-! ## The scanner output, pushed through the line-building loop, is the
amended splitter -/

lemma scan_pipe_nil :
    (∀ cur, pipeLines (scan Mode.A cur []) = amendedLines cur [])
    ∧ (∀ cur run, run ≠ [] → (∀ c ∈ run, isTerm c = true) →
        pipeLines (scan (Mode.P run) cur []) = amendedLines cur (run.reverse ++ []))
    ∧ (∀ cur run ws, run ≠ [] → (∀ c ∈ run, isTerm c = true) →
        (∀ c ∈ ws, isWs c = true) →
        pipeLines (scan (Mode.W run ws) cur [])
          = (if pyStrip cur.reverse = [] then []
             else [pyStrip cur.reverse ++ run.reverse])
            ++ amendedLines [] (List.dropWhile isWs [])) := by
  refine ⟨?_, ?_, ?_⟩
  · intro cur
    rw [scan_nil_A, pipeLines_one, amendedLines_nil]
  · intro cur run hr hrt
    have hrv : run.reverse ≠ [] := by simpa using hr
    have hrtv : ∀ d ∈ run.reverse, isTerm d = true :=
      fun d hd => hrt d (List.mem_reverse.1 hd)
    rw [scan_nil_P, pipeLines_cons2 _ _ (by simp : ([[]] : List Str) ≠ []),
      amendedLines_delim cur run.reverse [] hrv hrtv rfl (by simp),
      pyStrip_no_ws (fun c hc => term_not_ws (hrtv c hc)),
      show List.dropWhile isWs ([] : Str) = [] from rfl, amendedLines_nil_nil,
      pipeLines_one]
    simp [pyStrip]
  · intro cur run ws hr hrt hws
    have hrv : run.reverse ≠ [] := by simpa using hr
    rw [scan_nil_W, pipeLines_cons2 _ _ (by simp : ([[]] : List Str) ≠ []),
      pyStrip_term_ws hrv (fun c hc => hrt c (List.mem_reverse.1 hc))
        (fun c hc => hws c (List.mem_reverse.1 hc)),
      show List.dropWhile isWs ([] : Str) = [] from rfl, amendedLines_nil_nil,
      pipeLines_one]
    simp [pyStrip]

lemma scan_pipe : ∀ (n : Nat) (l : Str), l.length ≤ n →
    ((∀ cur, pipeLines (scan Mode.A cur l) = amendedLines cur l)
    ∧ (∀ cur run, run ≠ [] → (∀ c ∈ run, isTerm c = true) →
        pipeLines (scan (Mode.P run) cur l) = amendedLines cur (run.reverse ++ l))
    ∧ (∀ cur run ws, run ≠ [] → (∀ c ∈ run, isTerm c = true) →
        (∀ c ∈ ws, isWs c = true) →
        pipeLines (scan (Mode.W run ws) cur l)
          = (if pyStrip cur.reverse = [] then []
             else [pyStrip cur.reverse ++ run.reverse])
            ++ amendedLines [] (l.dropWhile isWs))) := by
  intro n
  induction n with
  | zero =>
    intro l hl
    have hnil : l = [] := List.length_eq_zero.1 (Nat.le_zero.1 hl)
    subst hnil
    exact scan_pipe_nil
  | succ n ih =>
    intro l hl
    cases l with
    | nil => exact scan_pipe_nil
    | cons c cs =>
      have hcs : cs.length ≤ n := by simp [List.length_cons] at hl; omega
      obtain ⟨ihA, ihP, ihW⟩ := ih cs hcs
      refine ⟨?_, ?_, ?_⟩
      · intro cur
        rw [scan_cons_A]
        by_cases hT : isTerm c
        · rw [if_pos hT, ihP cur [c] (by simp)
            (by intro d hd; simp at hd; subst hd; exact hT)]
          simp
        · have hT2 : isTerm c = false := by simpa using hT
          rw [if_neg hT, ihA (c :: cur), amendedLines_text cur c cs hT2]
      · intro cur run hr hrt
        have hrv : run.reverse ≠ [] := by simpa using hr
        have hrtv : ∀ d ∈ run.reverse, isTerm d = true :=
          fun d hd => hrt d (List.mem_reverse.1 hd)
        rw [scan_cons_P]
        by_cases hT : isTerm c
        · have hall : ∀ d ∈ c :: run, isTerm d = true := by
            intro d hd
            rcases List.mem_cons.1 hd with rfl | hd
            · exact hT
            · exact hrt d hd
          rw [if_pos hT, ihP cur (c :: run) (by simp) hall]
          simp [List.reverse_cons, List.append_assoc, List.singleton_append]
        · have hT2 : isTerm c = false := by simpa using hT
          rw [if_neg hT]
          by_cases hW : isWs c
          · rw [if_pos hW, ihW cur run [c] hr hrt
              (by intro d hd; simp at hd; subst hd; exact hW)]
            have hcond : ¬((c :: cs).takeWhile isWs = [] ∧ (c :: cs) ≠ []) := by
              rw [List.takeWhile_cons, if_pos hW]
              rintro ⟨h1, _⟩
              exact List.cons_ne_nil _ _ h1
            rw [amendedLines_delim cur run.reverse (c :: cs) hrv hrtv
              (twConsNeg cs hT2) hcond, List.dropWhile_cons, if_pos hW]
          · have hW2 : isWs c = false := by simpa using hW
            rw [if_neg hW, ihA (c :: (run ++ cur)),
              amendedLines_run_text cur run.reverse (c :: cs) hrv hrtv
                (twConsNeg cs hT2) ⟨twConsNeg cs hW2, List.cons_ne_nil _ _⟩,
              List.reverse_reverse, amendedLines_text _ c cs hT2]
      · intro cur run ws hr hrt hws
        have hrv : run.reverse ≠ [] := by simpa using hr
        have hsep : pyStrip (run.reverse ++ ws.reverse) = run.reverse :=
          pyStrip_term_ws hrv (fun d hd => hrt d (List.mem_reverse.1 hd))
            (fun d hd => hws d (List.mem_reverse.1 hd))
        rw [scan_cons_W]
        by_cases hT : isTerm c
        · rw [if_pos hT, pipeLines_cons2 _ _ (scan_ne_nil cs (Mode.P [c]) []), hsep,
            ihP [] [c] (by simp) (by intro d hd; simp at hd; subst hd; exact hT),
            dwConsNeg cs (term_not_ws hT)]
          simp
        · have hT2 : isTerm c = false := by simpa using hT
          rw [if_neg hT]
          by_cases hW : isWs c
          · have hall : ∀ d ∈ c :: ws, isWs d = true := by
              intro d hd
              rcases List.mem_cons.1 hd with rfl | hd
              · exact hW
              · exact hws d hd
            rw [if_pos hW, ihW cur run (c :: ws) hr hrt hall,
              List.dropWhile_cons, if_pos hW]
          · have hW2 : isWs c = false := by simpa using hW
            rw [if_neg hW, pipeLines_cons2 _ _ (scan_ne_nil cs Mode.A [c]), hsep,
              ihA [c], dwConsNeg cs hW2, amendedLines_text [] c cs hT2]

/-- The `formatted_lines` list the code builds equals the amended splitter. -/
lemma formatLines_amend (t : Str) : formatLines t = amendedLines [] t :=
  (scan_pipe t.length t le_rfl).1 []

lemma intercalate_single (x : Str) : List.intercalate brL [x] = x := by
  simp [List.intercalate, List.intersperse]

lemma format_eq (t : Str) :
    format_journal_text t = List.intercalate brL (formatLines t) := by
  cases t with
  | nil => rfl
  | cons c cs => simp [format_journal_text]

/-- The delimiter behaviour of the code's formatter: a maximal punctuation
run preceded by punctuation-free text and followed by whitespace (or by the
end of the input) produces exactly one line carrying the whole run — or no
line at all when the preceding text strips to empty. -/
lemma formatLines_delim (a run b : Str) (ha : ∀ c ∈ a, isTerm c = false)
    (hr : run ≠ []) (hrt : ∀ c ∈ run, isTerm c = true) :
    formatLines (a ++ run ++ ' ' :: b)
      = (if pyStrip a = [] then [] else [pyStrip a ++ run])
        ++ formatLines (b.dropWhile isWs)
    ∧ formatLines (a ++ run) = (if pyStrip a = [] then [] else [pyStrip a ++ run]) := by
  constructor
  · rw [formatLines_amend, List.append_assoc,
      amendedLines_textAll a [] (run ++ ' ' :: b) ha,
      show List.reverse a ++ [] = List.reverse a from List.append_nil _,
      amendedLines_delim a.reverse run (' ' :: b) hr hrt
        (twConsNeg b (by decide))
        (by rw [List.takeWhile_cons, if_pos (by decide : isWs ' ' = true)]
            rintro ⟨h1, _⟩
            exact List.cons_ne_nil _ _ h1),
      List.dropWhile_cons, if_pos (by decide : isWs ' ' = true),
      List.reverse_reverse, formatLines_amend (List.dropWhile isWs b)]
  · have h2 : a ++ run = a ++ (run ++ []) := by rw [List.append_nil]
    rw [h2, formatLines_amend, amendedLines_textAll a [] (run ++ []) ha,
      show List.reverse a ++ [] = List.reverse a from List.append_nil _,
      amendedLines_delim a.reverse run [] hr hrt rfl (by simp),
      show List.dropWhile isWs ([] : Str) = [] from rfl, amendedLines_nil_nil,
      List.append_nil, List.reverse_reverse]

/-! ## Claim theorems: the formatter -/

/-- C3 as stated is false: the claimed splitting rule — a run of terminal
punctuation always ends a sentence — disagrees with the code on `"a.b"`:
the regex only splits when the run is followed by whitespace or by the end
of the input, so the code leaves `"a.b"` as a single line while the claimed
rule produces the two lines `"a."` and `"b"`. -/
theorem C3_counterexample :
    format_journal_text (toL "a.b") ≠ formatForDisplaySpec (toL "a.b")
    ∧ format_journal_text (toL "a.b") = toL "a.b"
    ∧ formatForDisplaySpec (toL "a.b") = toL "a.<br>b" :=
  ⟨by decide, by decide, by decide⟩

/-- C3 amended: `format_journal_text` splits its input into sentences at
runs of terminal punctuation that are immediately followed by whitespace or
by the end of the input, keeps each such run attached to the sentence it
terminates, trims surrounding whitespace from each sentence, drops a
sentence together with its punctuation run when the sentence trims to
empty, keeps a trailing fragment with no terminal punctuation as its own
trimmed nonempty line, and joins the lines with `"<br>"`; on
`"Bought TSLA. Sold too early!"` it yields exactly the two lines
`"Bought TSLA."` and `"Sold too early!"`. -/
theorem C3_amended_formatter :
    (∀ t : Str, format_journal_text t = formatForDisplayAmended t)
    ∧ formatLines (toL "Bought TSLA. Sold too early!")
        = [toL "Bought TSLA.", toL "Sold too early!"]
    ∧ format_journal_text (toL "Bought TSLA. Sold too early!")
        = toL "Bought TSLA.<br>Sold too early!" := by
  refine ⟨fun t => ?_, by decide, by decide⟩
  rw [format_eq, formatLines_amend]
  rfl

/-- C7: the three edge cases.  Empty input yields empty output; input with
no terminal punctuation at all yields the single trimmed input line (shown
in general and on `"no punctuation here"`); and a consecutive punctuation
run such as `"..."` or `"?!"` acts as one delimiter and is never split
across lines: the whole run lands attached to the single line of the
sentence before it (or disappears with it), both mid-text and at the end of
the input, as the general delimiter equations state; `"Hmm... what?! ok"`
shows the runs staying whole. -/
theorem C7_formatter_edge_cases :
    format_journal_text (toL "") = toL ""
    ∧ (∀ t : Str, (∀ c ∈ t, isTerm c = false) → format_journal_text t = pyStrip t)
    ∧ format_journal_text (toL "no punctuation here") = toL "no punctuation here"
    ∧ format_journal_text (toL "Hmm... what?! ok") = toL "Hmm...<br>what?!<br>ok"
    ∧ (∀ a run b : Str, (∀ c ∈ a, isTerm c = false) → run ≠ [] →
        (∀ c ∈ run, isTerm c = true) →
        formatLines (a ++ run ++ ' ' :: b)
          = (if pyStrip a = [] then [] else [pyStrip a ++ run])
            ++ formatLines (b.dropWhile isWs)
        ∧ formatLines (a ++ run)
          = (if pyStrip a = [] then [] else [pyStrip a ++ run])) := by
  refine ⟨by decide, fun t ht => ?_, by decide, by decide,
    fun a run b ha hr hrt => formatLines_delim a run b ha hr hrt⟩
  rw [format_eq, formatLines_amend,
    show t = t ++ [] from (List.append_nil t).symm,
    amendedLines_textAll t [] [] ht,
    show List.reverse t ++ [] = List.reverse t from List.append_nil _,
    amendedLines_nil, List.reverse_reverse, List.append_nil]
  by_cases hs : pyStrip t = []
  · rw [if_pos hs, hs]; rfl
  · rw [if_neg hs]; exact intercalate_single _

theorem C7_witness :
    format_journal_text (toL "words only") = pyStrip (toL "words only")
    ∧ formatLines (toL "Hmm" ++ toL "..." ++ ' ' :: toL "ok")
        = (if pyStrip (toL "Hmm") = [] then []
           else [pyStrip (toL "Hmm") ++ toL "..."])
          ++ formatLines ((toL "ok").dropWhile isWs) :=
  ⟨C7_formatter_edge_cases.2.1 (toL "words only") (by decide),
   (C7_formatter_edge_cases.2.2.2.2 (toL "Hmm") (toL "...") (toL "ok")
      (by decide) (by decide) (by decide)).1⟩

/-- C10: a split segment whose text strips to empty is dropped from the
output together with its punctuation run: the pairing loop skips such a
pair, and in general punctuation-free text that trims to empty disappears
with the maximal run that follows it; in particular `"... hi"` formats to
the single line `"hi"` with the leading dots omitted. -/
theorem C10_empty_segment_dropped :
    format_journal_text (toL "... hi") = toL "hi"
    ∧ (∀ (s p : Str) (rest : List Str), pyStrip s = [] →
        pairLines (s :: p :: rest) = pairLines rest)
    ∧ (∀ a run b : Str, (∀ c ∈ a, isTerm c = false) → run ≠ [] →
        (∀ c ∈ run, isTerm c = true) → pyStrip a = [] →
        formatLines (a ++ run ++ ' ' :: b) = formatLines (b.dropWhile isWs)) := by
  refine ⟨by decide, ?_, ?_⟩
  · intro s p rest h
    rw [pairLines_cons2, if_pos h, List.nil_append]
  · intro a run b ha hr hrt hstrip
    rw [(formatLines_delim a run b ha hr hrt).1, if_pos hstrip, List.nil_append]

theorem C10_witness :
    formatLines (toL " " ++ toL "..." ++ ' ' :: toL "hi")
      = formatLines ((toL "hi").dropWhile isWs) :=
  C10_empty_segment_dropped.2.2 (toL " ") (toL "...") (toL "hi")
    (by decide) (by decide) (by decide) (by decide)
